import Mathlib

/-!
Verification of the release-orchestration script `release.py` of the
jthreaddump repository.

The development shallowly embeds the script's pure text manipulation
(version parsing and bumping, artifact version substitution, changelog
validation and promotion) as functions on `List Char`, and the
side-effecting pipeline of `main` as an explicit state-passing function
over a model of the four declared project files, the backup directory,
and a trace of executed external commands and file writes.

Python strings are modelled as `List Char` (ASCII fragment); Python
`str.replace`, the concrete regular expressions of the script, and
Python's `int()` literal syntax are each embedded by specialised
executable functions that mirror the source semantics (leftmost match,
greedy backtracking where relevant).
-/

namespace Release

/-! ### Basic character and string helpers -/

/-- ASCII whitespace recognised by Python's `str.strip()` and the regex
class `\s` (restricted to the ASCII range). -/
def isPyWs (c : Char) : Bool :=
  c = ' ' || c = '\t' || c = '\n' || c = '\r' || c = '\x0b' || c = '\x0c'

/-- Characters matched by the regex class `[\d.]` used in
`get_current_version` and in the changelog link pattern. -/
def isDigitDot (c : Char) : Bool :=
  c.isDigit || c = '.'

/-- Python `str.strip()`: drop leading and trailing whitespace. -/
def pyStrip (l : List Char) : List Char :=
  ((l.dropWhile isPyWs).reverse.dropWhile isPyWs).reverse

/-- Python `str.split('.')`: split on every dot, keeping empty parts. -/
def splitOnDot : List Char → List (List Char)
  | [] => [[]]
  | c :: rest =>
    let r := splitOnDot rest
    if c = '.' then [] :: r
    else
      match r with
      | s :: ss => (c :: s) :: ss
      | [] => [[c]]

/-- Python `str.replace(old, new, 1)`: replace the leftmost occurrence
of `pat` (scan position by position), leave the string unchanged when
`pat` does not occur. -/
def replaceFirst (pat repl : List Char) : List Char → List Char
  | [] => if pat.isEmpty then repl else []
  | c :: rest =>
    if pat.isPrefixOf (c :: rest) then repl ++ (c :: rest).drop pat.length
    else c :: replaceFirst pat repl rest

/-- Fuel-indexed scanner behind `replaceAll`; the fuel is an upper
bound on the scan length, making the recursion structural (and hence
kernel-reducible). -/
def replaceAllF (pat repl : List Char) : Nat → List Char → List Char
  | 0, l => l
  | _ + 1, [] => []
  | fuel + 1, c :: rest =>
    if !pat.isEmpty && pat.isPrefixOf (c :: rest) then
      repl ++ replaceAllF pat repl fuel ((c :: rest).drop pat.length)
    else
      c :: replaceAllF pat repl fuel rest

/-- Python `str.replace(old, new)` (no count): replace every
non-overlapping occurrence, scanning left to right.  The script only
ever calls it with non-empty patterns; for an empty pattern this
embedding leaves the string unchanged. -/
def replaceAll (pat repl l : List Char) : List Char :=
  replaceAllF pat repl l.length l

/-- Python substring test `pat in s` (non-empty or empty pattern). -/
def containsSub (pat : List Char) : List Char → Bool
  | [] => pat.isEmpty
  | c :: rest => pat.isPrefixOf (c :: rest) || containsSub pat rest

/-! ### Python `int()` on strings

`parse_version` applies Python's `int` to each dot-separated part.  For
ASCII input, `int(text)` strips surrounding whitespace, accepts one
optional sign, and then a non-empty digit sequence in which single
underscores may appear between digits. -/

/-- Numeric value of a decimal digit character. -/
def digitVal (c : Char) : Nat := c.toNat - 48

/-- Digit-sequence tail of a Python integer literal: after an accepted
digit, either the string ends, another digit follows, or a single
underscore followed by a digit follows. -/
def pyDigitsAux (a : Nat) : List Char → Option Nat
  | [] => some a
  | c :: rest =>
    if c = '_' then
      match rest with
      | c2 :: rest2 =>
        if c2.isDigit then pyDigitsAux (10 * a + digitVal c2) rest2 else none
      | [] => none
    else if c.isDigit then pyDigitsAux (10 * a + digitVal c) rest
    else none

/-- Unsigned part of a Python integer literal: a digit followed by the
digit/underscore tail. -/
def pyIntDigits : List Char → Option Nat
  | [] => none
  | c :: rest => if c.isDigit then pyDigitsAux (digitVal c) rest else none

/-- Python `int(text)` on ASCII text: strip whitespace, optional sign,
digits with single interior underscores; `none` models `ValueError`. -/
def pyInt (l : List Char) : Option Int :=
  match pyStrip l with
  | [] => none
  | c :: rest =>
    if c = '-' then (pyIntDigits rest).map (fun n => -(n : Int))
    else if c = '+' then (pyIntDigits rest).map (fun n => (n : Int))
    else (pyIntDigits (c :: rest)).map (fun n => (n : Int))

/-- Fuel-indexed decimal rendering; the fuel strictly dominates the
argument, making the recursion structural. -/
def natToCharsF : Nat → Nat → List Char
  | 0, _ => []
  | fuel + 1, n =>
    if n < 10 then [Char.ofNat (48 + n)]
    else natToCharsF fuel (n / 10) ++ [Char.ofNat (48 + n % 10)]

/-- Decimal rendering of a natural number, as produced by Python's
`str`/f-string formatting of a non-negative `int`. -/
def natToChars (n : Nat) : List Char := natToCharsF (n + 1) n

/-- Decimal rendering of a Python `int`, negative values prefixed with
a minus sign. -/
def intToChars (i : Int) : List Char :=
  if i < 0 then '-' :: natToChars (-i).toNat else natToChars i.toNat

/-! ### VersionModel: `parse_version` and the bump operations -/

/-- Embedding of `VersionBumper.parse_version`: split on dots, require
exactly three parts, convert each with Python `int`; `none` models the
raised `ValueError`. -/
def parseVersion (s : List Char) : Option (Int × Int × Int) :=
  match splitOnDot s with
  | [a, b, c] =>
    match pyInt a, pyInt b, pyInt c with
    | some x, some y, some z => some (x, y, z)
    | _, _, _ => none
  | _ => none

/-- Serialisation of a parsed version triple back to `major.minor.patch`
text, as Python f-string formatting renders the components. -/
def serializeVersion (v : Int × Int × Int) : List Char :=
  intToChars v.1 ++ '.' :: intToChars v.2.1 ++ '.' :: intToChars v.2.2

/-- Embedding of `VersionBumper.bump_minor`: parse, then format
`f"{major}.{minor + 1}.0"`. -/
def bumpMinor (s : List Char) : Option (List Char) :=
  (parseVersion s).map fun v =>
    intToChars v.1 ++ '.' :: intToChars (v.2.1 + 1) ++ ['.', '0']

/-- Embedding of `VersionBumper.bump_major`: parse, then format
`f"{major + 1}.0.0"`. -/
def bumpMajor (s : List Char) : Option (List Char) :=
  (parseVersion s).map fun v =>
    intToChars (v.1 + 1) ++ ['.', '0', '.', '0']

/-- Embedding of `VersionBumper.bump_patch`: parse, then format
`f"{major}.{minor}.{patch + 1}"`. -/
def bumpPatch (s : List Char) : Option (List Char) :=
  (parseVersion s).map fun v =>
    intToChars v.1 ++ '.' :: intToChars v.2.1 ++ '.' :: intToChars (v.2.2 + 1)

/-! ### Literal patterns of the script's regular expressions -/

/-- The literal `## [Unreleased]` (changelog pending-section heading). -/
def unreleasedHeading : List Char :=
  ['#', '#', ' ', '[', 'U', 'n', 'r', 'e', 'l', 'e', 'a', 's', 'e', 'd', ']']

/-- The literal `[Unreleased]: ` opening the trailing comparison link. -/
def linkLabel : List Char :=
  ['[', 'U', 'n', 'r', 'e', 'l', 'e', 'a', 's', 'e', 'd', ']', ':', ' ']

/-- The literal `/compare/v` inside the comparison-link pattern. -/
def compareLit : List Char :=
  ['/', 'c', 'o', 'm', 'p', 'a', 'r', 'e', '/', 'v']

/-- The literal `...HEAD` ending the pending comparison link (the three
dots are escaped in the source pattern). -/
def dotsHead : List Char :=
  ['.', '.', '.', 'H', 'E', 'A', 'D']

/-- The literal `\n## [` of the lookahead ending the pending section. -/
def nextHeadingLit : List Char :=
  ['\n', '#', '#', ' ', '[']

/-- The literal `<version>` of `get_current_version`'s pattern. -/
def verOpenLit : List Char :=
  ['<', 'v', 'e', 'r', 's', 'i', 'o', 'n', '>']

/-- The literal `</version>` of `get_current_version`'s pattern. -/
def verCloseLit : List Char :=
  ['<', '/', 'v', 'e', 'r', 's', 'i', 'o', 'n', '>']

/-! ### `get_current_version`: the pattern `<version>([\d.]+)</version>`

`re.search` scans left to right; at a position where the literal
`<version>` matches, the greedy class run `[\d.]+` is maximal, and no
backtracking inside the class can help because `<` is not a class
character — so the literal `</version>` must follow the maximal run. -/

/-- Leftmost match of `<version>([\d.]+)</version>`, returning the
captured group. -/
def findPomVersion : List Char → Option (List Char)
  | [] => none
  | c :: rest =>
    if verOpenLit.isPrefixOf (c :: rest) then
      let after := (c :: rest).drop verOpenLit.length
      let run := after.takeWhile isDigitDot
      if !run.isEmpty && verCloseLit.isPrefixOf (after.drop run.length) then some run
      else findPomVersion rest
    else findPomVersion rest

/-! ### `get_changelog_entry`: `## \[Unreleased\]\s*\n(.*?)(?=\n## \[|$)`

After the heading literal, greedy `\s*` followed by `\n` consumes the
maximal whitespace run up to and including its last newline (and fails
when the run contains none).  The non-greedy dotall group then extends
to the first position where `\n## [` follows or the string ends (`$`
also matches just before a final trailing newline). -/

/-- Splits off everything after the last newline of the list, `none`
when the list contains no newline. -/
def lastNlSplit : List Char → Option (List Char)
  | [] => none
  | c :: rest =>
    match lastNlSplit rest with
    | some t => some t
    | none => if c = '\n' then some rest else none

/-- Consume `\s*\n` greedily: the maximal whitespace run through its
last newline; `none` when the run has no newline. -/
def wsThruLastNl (l : List Char) : Option (List Char) :=
  let w := l.takeWhile isPyWs
  match lastNlSplit w with
  | some tail => some (tail ++ l.drop w.length)
  | none => none

/-- The non-greedy dotall group `(.*?)(?=\n## \[|$)`: collect characters
until `\n## [` follows, the string ends, or only a final newline
remains. -/
def bodyScan : List Char → List Char
  | [] => []
  | c :: rest =>
    if (c :: rest) = ['\n'] then []
    else if nextHeadingLit.isPrefixOf (c :: rest) then []
    else c :: bodyScan rest

/-- Leftmost match of the pending-section pattern, returning the body
group (not yet stripped). -/
def findUnreleasedBody : List Char → Option (List Char)
  | [] => none
  | c :: rest =>
    if unreleasedHeading.isPrefixOf (c :: rest) then
      match wsThruLastNl ((c :: rest).drop unreleasedHeading.length) with
      | some after => some (bodyScan after)
      | none => findUnreleasedBody rest
    else findUnreleasedBody rest

/-- Embedding of `VersionBumper.get_changelog_entry` lifted over file
existence (`none` models a missing `CHANGELOG.md`).  The `version`
parameter is unused, exactly as in the source. -/
def getChangelogEntry (_version : List Char) (file : Option (List Char)) : List Char :=
  match file with
  | none => []
  | some content =>
    match findUnreleasedBody content with
    | none => []
    | some b => pyStrip b

/-- Embedding of `VersionBumper.validate_changelog`: false when the
pending entry is missing/empty or shorter than 20 characters. -/
def validateChangelog (version : List Char) (file : Option (List Char)) : Bool :=
  let entry := getChangelogEntry version file
  if entry.isEmpty || entry.length < 20 then false else true

/-! ### `update_changelog`: promotion of the pending section

Step 1 replaces the first occurrence of the heading literal by the
version section text.  Step 2 searches for
`\[Unreleased\]: (.+)/compare/v([\d.]+)\.\.\.HEAD` (greedy `.+` with
backtracking: the split point is the last one that lets the rest of the
pattern match inside the same line).  Step 3 replaces every line match
of `\[Unreleased\]: .+` by the two fresh links.  Substituting the
replacement text literally models `re.sub` faithfully as long as the
captured base URL contains no backslash (Python would interpret escape
sequences in the replacement). -/

/-- Descending search: the largest `k` with `1 ≤ k ≤ bound` satisfying
`p`; this is the backtracking order of a greedy quantifier. -/
def descFind (p : Nat → Bool) : Nat → Option Nat
  | 0 => none
  | k + 1 => if p (k + 1) then some (k + 1) else descFind p k

/-- Greedy match of `([\d.]+)\.\.\.HEAD` at the start of `l`: the class
run is maximal, then gives back characters until `...HEAD` follows. -/
def matchTailDigits (l : List Char) : Option (List Char) :=
  let run := l.takeWhile isDigitDot
  match descFind (fun j => dotsHead.isPrefixOf (l.drop j)) run.length with
  | some j => some (l.take j)
  | none => none

/-- Greedy match of `(.+)/compare/v([\d.]+)\.\.\.HEAD` against the rest
of the line after the label, returning both groups. -/
def matchCompareLine (line : List Char) : Option (List Char × List Char) :=
  match descFind
      (fun k =>
        compareLit.isPrefixOf (line.drop k) &&
        (matchTailDigits (line.drop (k + compareLit.length))).isSome)
      line.length with
  | some k =>
    match matchTailDigits (line.drop (k + compareLit.length)) with
    | some g2 => some (line.take k, g2)
    | none => none
  | none => none

/-- Leftmost match of the full comparison-link pattern, returning
(base URL, previous version). -/
def findLinkSearch : List Char → Option (List Char × List Char)
  | [] => none
  | c :: rest =>
    if linkLabel.isPrefixOf (c :: rest) then
      match matchCompareLine
          (((c :: rest).drop linkLabel.length).takeWhile (fun x => x ≠ '\n')) with
      | some g => some g
      | none => findLinkSearch rest
    else findLinkSearch rest

/-- Fuel-indexed scanner behind `subLinkLines`. -/
def subLinkLinesF (repl : List Char) : Nat → List Char → List Char
  | 0, l => l
  | _ + 1, [] => []
  | fuel + 1, c :: rest =>
    let after := (c :: rest).drop linkLabel.length
    let lineRest := after.takeWhile (fun x => x ≠ '\n')
    if linkLabel.isPrefixOf (c :: rest) && !lineRest.isEmpty then
      repl ++ subLinkLinesF repl fuel (after.drop lineRest.length)
    else c :: subLinkLinesF repl fuel rest

/-- `re.sub(r'\[Unreleased\]: .+', repl, l)`: replace every
non-overlapping line match, scanning left to right. -/
def subLinkLines (repl l : List Char) : List Char :=
  subLinkLinesF repl l.length l

/-- The fixed text between the retained pending heading and the new
version heading (empty subsection template). -/
def sectionTemplate : List Char :=
  "\n\n### Added\n### Changed\n### Deprecated\n### Removed\n### Fixed\n### Security\n\n## [".toList

/-- The `version_section` replacement text of `update_changelog`. -/
def versionSection (version today : List Char) : List Char :=
  unreleasedHeading ++ sectionTemplate ++ version ++ "] - ".toList ++ today

/-- The two fresh comparison links written by `update_changelog`. -/
def newLinksText (version baseUrl oldVersion : List Char) : List Char :=
  linkLabel ++ baseUrl ++ compareLit ++ version ++ dotsHead ++
    '\n' :: '[' :: version ++ "]: ".toList ++ baseUrl ++ compareLit ++
    oldVersion ++ "...v".toList ++ version

/-- Embedding of the pure text transformation of
`VersionBumper.update_changelog` (the current date is passed in as the
`today` argument). -/
def updateChangelogContent (version today content : List Char) : List Char :=
  let c1 := replaceFirst unreleasedHeading (versionSection version today) content
  match findLinkSearch c1 with
  | some g => subLinkLines (newLinksText version g.1 g.2) c1
  | none => c1

/-! ### ArtifactMutator: the three version substitutions -/

/-- The text `<version>VER</version>`. -/
def verTag (v : List Char) : List Char := verOpenLit ++ v ++ verCloseLit

/-- The text `version = "VER"` targeted in `Main.java`. -/
def javaVerLit (v : List Char) : List Char :=
  "version = ".toList ++ '"' :: v ++ ['"']

/-- Pure content transformation of `update_pom_xml`: first occurrence
only. -/
def updatePomContent (oldV newV c : List Char) : List Char :=
  replaceFirst (verTag oldV) (verTag newV) c

/-- Pure content transformation of `update_main_java`: all
occurrences. -/
def updateMainJavaContent (oldV newV c : List Char) : List Char :=
  replaceAll (javaVerLit oldV) (javaVerLit newV) c

/-- Pure content transformation of `update_readme`: all occurrences. -/
def updateReadmeContent (oldV newV c : List Char) : List Char :=
  replaceAll (verTag oldV) (verTag newV) c

/-! ### Orchestrator model

`main` is embedded as an explicit state-passing function.  The state
holds the contents of the four declared files (`none` models a missing
file), the backup staging directory, the `backups_created` flag, and an
event trace recording backup capture, every `write_text` to a declared
file, and every external command execution.  `sys.exit` is modelled by
the `systemExit` error; other Python exceptions (caught by `main`'s
`except Exception` handler) by the remaining constructors.  Filesystem
faults (unreadable disk, failing `mkdir`) and `KeyboardInterrupt` are
outside the model. -/

/-- External commands the script can run. -/
inductive Cmd where
  | mvnTest | mvnPackage | mvnDeploy
  | gitAdd | gitCommit | gitTag | gitPush | gitPushTags
  | ghVersionCheck | ghAuthStatus | ghReleaseCreate
  deriving DecidableEq, Repr

/-- The four declared files of the release pipeline. -/
inductive FileTag where
  | pom | mainJava | readme | changelog
  deriving DecidableEq, Repr

/-- Trace events: backup capture, a `write_text` to a declared file, an
external command execution. -/
inductive Event where
  | backupCaptured
  | wrote (f : FileTag)
  | ran (c : Cmd)
  deriving DecidableEq, Repr

/-- Snapshot slots of the `.release-backup` staging directory. -/
structure Backup where
  pom : Option (List Char)
  mainJava : Option (List Char)
  readme : Option (List Char)
  changelog : Option (List Char)
  deriving DecidableEq, Repr

/-- The modelled filesystem: the four declared files and the backup
directory (`none` = absent). -/
structure FS where
  pomXml : Option (List Char)
  mainJava : Option (List Char)
  readme : Option (List Char)
  changelog : Option (List Char)
  backupDir : Option Backup
  deriving DecidableEq, Repr

/-- Run state: filesystem, the `backups_created` flag, event trace. -/
structure St where
  fs : FS
  backupsCreated : Bool
  events : List Event
  deriving DecidableEq, Repr

/-- Command-line flags of the script. -/
structure Args where
  major : Bool
  minor : Bool
  patch : Bool
  noDeploy : Bool
  noGithubRelease : Bool
  noPush : Bool
  skipTests : Bool
  dryRun : Bool
  deriving DecidableEq, Repr

/-- The run environment: each external command's success, the operator's
two interactive answers, and today's date string. -/
structure Env where
  cmdOk : Cmd → Bool
  confirmStart : List Char
  confirmDeploy : List Char
  today : List Char

/-- Python-level failures: `sys.exit(code)` (a `SystemExit`, not caught
by `except Exception`), and ordinary exceptions. -/
inductive PyErr where
  | systemExit (code : Nat)
  | valueError
  | fileNotFound
  deriving DecidableEq, Repr

/-- Result of a pipeline fragment: the new state, or a failure carrying
the state at raise time. -/
abbrev StepRes := Except (PyErr × St) St

/-- Sequencing of pipeline fragments. -/
def bindStep (r : StepRes) (f : St → StepRes) : StepRes :=
  match r with
  | .ok st => f st
  | .error e => .error e

/-- The operator's `input(...)` answer check
`response.lower() in ['y', 'yes']`. -/
def isYes (response : List Char) : Bool :=
  let r := response.map Char.toLower
  r = ['y'] || r = ['y', 'e', 's']

/-- Copy one snapshot slot back over its original path (skipped when
the snapshot is absent), recording the file write. -/
def restoreFile (tag : FileTag) (snap : Option (List Char))
    (put : List Char → FS → FS) (st : St) : St :=
  match snap with
  | some c => { st with fs := put c st.fs,
                        events := st.events ++ [Event.wrote tag] }
  | none => st

/-- Embedding of `VersionBumper.restore_backups`: a no-op unless the
`backups_created` flag is set and the staging directory exists;
otherwise copies every existing snapshot back over its original path,
in the source's order pom, Main.java, README, CHANGELOG. -/
def restoreBackups (st : St) : St :=
  if !st.backupsCreated then st
  else
    match st.fs.backupDir with
    | none => st
    | some b =>
      restoreFile .changelog b.changelog (fun c fs => { fs with changelog := some c })
        (restoreFile .readme b.readme (fun c fs => { fs with readme := some c })
          (restoreFile .mainJava b.mainJava (fun c fs => { fs with mainJava := some c })
            (restoreFile .pom b.pom (fun c fs => { fs with pomXml := some c }) st)))

/-- Embedding of `VersionBumper.run_command` (with the default
`check=True`): record the execution; on non-zero exit restore the
backups and `sys.exit(1)`. -/
def runCommand (env : Env) (c : Cmd) (st : St) : StepRes :=
  let st1 := { st with events := st.events ++ [Event.ran c] }
  if env.cmdOk c then .ok st1
  else .error (PyErr.systemExit 1, restoreBackups st1)

/-- Embedding of `VersionBumper.create_backups`: ensure the staging
directory exists, snapshot every existing declared file (stale slots of
a pre-existing directory survive for files that are now absent), set
the flag. -/
def createBackupsStep (st : St) : St :=
  let base := match st.fs.backupDir with
    | some b => b
    | none => ⟨none, none, none, none⟩
  let b : Backup :=
    { pom := match st.fs.pomXml with | some c => some c | none => base.pom
      mainJava := match st.fs.mainJava with | some c => some c | none => base.mainJava
      readme := match st.fs.readme with | some c => some c | none => base.readme
      changelog := match st.fs.changelog with | some c => some c | none => base.changelog }
  { st with fs := { st.fs with backupDir := some b },
            backupsCreated := true,
            events := st.events ++ [Event.backupCaptured] }

/-- Embedding of `VersionBumper.cleanup_backups`. -/
def cleanupBackupsStep (st : St) : St :=
  match st.fs.backupDir with
  | some _ => { st with fs := { st.fs with backupDir := none } }
  | none => st

/-- Embedding of `VersionBumper.update_pom_xml`: read (raising when the
file is missing), substitute the first occurrence, write back. -/
def updatePomXmlStep (oldV newV : List Char) (st : St) : StepRes :=
  match st.fs.pomXml with
  | none => .error (PyErr.fileNotFound, st)
  | some c =>
    .ok { st with fs := { st.fs with pomXml := some (updatePomContent oldV newV c) },
                  events := st.events ++ [Event.wrote .pom] }

/-- Embedding of `VersionBumper.update_main_java`. -/
def updateMainJavaStep (oldV newV : List Char) (st : St) : StepRes :=
  match st.fs.mainJava with
  | none => .error (PyErr.fileNotFound, st)
  | some c =>
    .ok { st with fs := { st.fs with mainJava := some (updateMainJavaContent oldV newV c) },
                  events := st.events ++ [Event.wrote .mainJava] }

/-- Embedding of `VersionBumper.update_readme`. -/
def updateReadmeStep (oldV newV : List Char) (st : St) : StepRes :=
  match st.fs.readme with
  | none => .error (PyErr.fileNotFound, st)
  | some c =>
    .ok { st with fs := { st.fs with readme := some (updateReadmeContent oldV newV c) },
                  events := st.events ++ [Event.wrote .readme] }

/-- Embedding of `VersionBumper.update_changelog`: silently skipped when
`CHANGELOG.md` does not exist, otherwise rewrite the document. -/
def updateChangelogStep (version today : List Char) (st : St) : St :=
  match st.fs.changelog with
  | none => st
  | some c =>
    { st with fs := { st.fs with changelog := some (updateChangelogContent version today c) },
              events := st.events ++ [Event.wrote .changelog] }

/-- Embedding of `VersionBumper.get_current_version`: read `pom.xml`
(raising when missing) and search the version pattern (raising
`ValueError` when absent). -/
def getCurrentVersion (fs : FS) : Except PyErr (List Char) :=
  match fs.pomXml with
  | none => .error PyErr.fileNotFound
  | some c =>
    match findPomVersion c with
    | some v => .ok v
    | none => .error PyErr.valueError

/-- The bump selected by the flags (`--major`, then `--patch`, else the
default minor bump), `none` modelling the `ValueError` of
`parse_version`. -/
def bumpOf (args : Args) (v : List Char) : Option (List Char) :=
  if args.major then bumpMajor v
  else if args.patch then bumpPatch v
  else bumpMinor v

/-- Embedding of `VersionBumper.create_github_release`: a missing or
unauthenticated `gh` CLI degrades to a skip; otherwise the release is
created through `run_command` (the transient `.release-notes.md` helper
file and the optional jar asset argument do not touch the declared
files and are not modelled). -/
def createGithubReleaseStep (env : Env) (st : St) : StepRes :=
  let st1 := { st with events := st.events ++ [Event.ran Cmd.ghVersionCheck] }
  if !env.cmdOk Cmd.ghVersionCheck then .ok st1
  else
    let st2 := { st1 with events := st1.events ++ [Event.ran Cmd.ghAuthStatus] }
    if !env.cmdOk Cmd.ghAuthStatus then .ok st2
    else runCommand env Cmd.ghReleaseCreate st2

/-- The deploy phase of `main`: skipped under `--no-deploy`; otherwise
gated on a second interactive confirmation whose refusal degrades to a
skip. -/
def deployPhase (args : Args) (env : Env) (st : St) : StepRes :=
  if !args.noDeploy then
    if isYes env.confirmDeploy then runCommand env Cmd.mvnDeploy st
    else .ok st
  else .ok st

/-- The four file mutations of `main`'s "Updating version files"
section (the changelog update cannot fail: a missing `CHANGELOG.md` is
skipped). -/
def mutatePhase (currentV newV today : List Char) (st : St) : StepRes :=
  bindStep (updatePomXmlStep currentV newV st) fun st2 =>
  bindStep (updateMainJavaStep currentV newV st2) fun st3 =>
  bindStep (updateReadmeStep currentV newV st3) fun st4 =>
  .ok (updateChangelogStep newV today st4)

/-- The test step, skipped under `--skip-tests`. -/
def testPhase (args : Args) (env : Env) (st : St) : StepRes :=
  if args.skipTests then .ok st else runCommand env Cmd.mvnTest st

/-- The push step pair, skipped under `--no-push`. -/
def pushPhase (args : Args) (env : Env) (st : St) : StepRes :=
  if !args.noPush then
    bindStep (runCommand env Cmd.gitPush st) fun st' =>
      runCommand env Cmd.gitPushTags st'
  else .ok st

/-- The GitHub-release step, skipped under `--no-github-release`. -/
def ghPhase (args : Args) (env : Env) (st : St) : StepRes :=
  if !args.noGithubRelease then createGithubReleaseStep env st else .ok st

/-- The `try:` block of `main`: backups, the four file mutations, tests
(unless skipped), build, optional deploy, git stage/commit/tag,
optional push, optional GitHub release, backup cleanup. -/
def tryBlock (args : Args) (env : Env) (currentV newV : List Char) (st : St) : StepRes :=
  let st1 := createBackupsStep st
  bindStep (mutatePhase currentV newV env.today st1) fun st5 =>
  bindStep (testPhase args env st5) fun st6 =>
  bindStep (runCommand env Cmd.mvnPackage st6) fun st7 =>
  bindStep (deployPhase args env st7) fun st8 =>
  bindStep (runCommand env Cmd.gitAdd st8) fun st9 =>
  bindStep (runCommand env Cmd.gitCommit st9) fun st10 =>
  bindStep (runCommand env Cmd.gitTag st10) fun st11 =>
  bindStep (pushPhase args env st11) fun st12 =>
  bindStep (ghPhase args env st12) fun st13 =>
  .ok (cleanupBackupsStep st13)

/-- Embedding of `main` (after argument parsing): returns the process
exit code and the final state.  An uncaught exception terminates the
process with exit code 1; the `except Exception` handler restores the
backups before re-raising. -/
def mainRun (args : Args) (env : Env) (fs0 : FS) : Nat × St :=
  let st0 : St := ⟨fs0, false, []⟩
  match getCurrentVersion fs0 with
  | .error _ => (1, st0)
  | .ok currentV =>
    match bumpOf args currentV with
    | none => (1, st0)
    | some newV =>
      if !args.dryRun && !validateChangelog newV fs0.changelog then (1, st0)
      else if args.dryRun then (0, st0)
      else if !isYes env.confirmStart then (0, st0)
      else
        match tryBlock args env currentV newV st0 with
        | .ok st' => (0, st')
        | .error (PyErr.systemExit n, st') => (n, st')
        | .error (_, st') => (1, restoreBackups st')

/-! ## Supporting lemmas -/

/-- Accumulator-style decimal value of a digit list. -/
def decimalValFrom (a : Nat) (l : List Char) : Nat :=
  l.foldl (fun acc c => 10 * acc + digitVal c) a

theorem decimalValFrom_append (a : Nat) (l₁ l₂ : List Char) :
    decimalValFrom a (l₁ ++ l₂) = decimalValFrom (decimalValFrom a l₁) l₂ := by
  simp [decimalValFrom, List.foldl_append]

theorem digit_char_isDigit {d : Nat} (h : d < 10) :
    (Char.ofNat (48 + d)).isDigit = true := by
  interval_cases d <;> decide

theorem digit_char_val {d : Nat} (h : d < 10) :
    digitVal (Char.ofNat (48 + d)) = d := by
  interval_cases d <;> decide

theorem isDigit_ne {c x : Char} (h : c.isDigit = true) (hx : x.isDigit = false) :
    c ≠ x := by
  intro e; subst e; rw [h] at hx; exact Bool.noConfusion hx

theorem isDigit_not_ws {c : Char} (h : c.isDigit = true) : isPyWs c = false := by
  simp only [isPyWs, Bool.or_eq_false_iff, decide_eq_false_iff_not]
  refine ⟨⟨⟨⟨⟨?_, ?_⟩, ?_⟩, ?_⟩, ?_⟩, ?_⟩ <;>
    · intro e; subst e; exact Bool.noConfusion h

theorem natToCharsF_all_digits (fuel n : Nat) :
    ∀ c ∈ natToCharsF fuel n, c.isDigit = true := by
  induction fuel generalizing n with
  | zero => intro c hc; simp [natToCharsF] at hc
  | succ fuel ih =>
    intro c hc
    by_cases h : n < 10
    · simp [natToCharsF, h] at hc
      subst hc; exact digit_char_isDigit h
    · simp [natToCharsF, h] at hc
      rcases hc with hc | hc
      · exact ih _ c hc
      · subst hc; exact digit_char_isDigit (Nat.mod_lt _ (by omega))

theorem natToCharsF_ne_nil {fuel n : Nat} (h : n < fuel) :
    natToCharsF fuel n ≠ [] := by
  cases fuel with
  | zero => omega
  | succ fuel =>
    by_cases h10 : n < 10 <;> simp [natToCharsF, h10]

theorem natToCharsF_val {fuel : Nat} :
    ∀ {n : Nat}, n < fuel → ∀ a,
      decimalValFrom a (natToCharsF fuel n) =
        a * 10 ^ (natToCharsF fuel n).length + n := by
  induction fuel with
  | zero => intro n h; omega
  | succ fuel ih =>
    intro n h a
    by_cases h10 : n < 10
    · simp only [natToCharsF, h10, if_true, decimalValFrom, List.foldl_cons,
        List.foldl_nil, digit_char_val h10, List.length_cons, List.length_nil,
        pow_succ, pow_zero, Nat.one_mul, Nat.mul_one]
      omega
    · have hd : n / 10 < n := Nat.div_lt_self (by omega) (by omega)
      have hrec : n / 10 < fuel := by omega
      have hmod : n % 10 < 10 := Nat.mod_lt _ (by omega)
      simp only [natToCharsF, h10, if_false]
      rw [decimalValFrom_append, ih hrec]
      simp only [decimalValFrom, List.foldl_cons, List.foldl_nil,
        digit_char_val hmod, List.length_append, List.length_cons,
        List.length_nil, pow_succ, pow_zero, Nat.one_mul, Nat.mul_one]
      have hmul : a * (10 ^ (natToCharsF fuel (n / 10)).length * 10) =
          a * 10 ^ (natToCharsF fuel (n / 10)).length * 10 := by ring
      rw [hmul]
      generalize a * 10 ^ (natToCharsF fuel (n / 10)).length = A
      omega

theorem natToChars_all_digits (n : Nat) :
    ∀ c ∈ natToChars n, c.isDigit = true :=
  natToCharsF_all_digits (n + 1) n

theorem natToChars_ne_nil (n : Nat) : natToChars n ≠ [] :=
  natToCharsF_ne_nil (Nat.lt_succ_self n)

theorem natToChars_val (n : Nat) : decimalValFrom 0 (natToChars n) = n := by
  have := natToCharsF_val (Nat.lt_succ_self n) 0
  simpa [natToChars] using this

theorem pyDigitsAux_all_digits {l : List Char} (h : ∀ c ∈ l, c.isDigit = true) (a : Nat) :
    pyDigitsAux a l = some (decimalValFrom a l) := by
  induction l generalizing a with
  | nil => simp [pyDigitsAux, decimalValFrom]
  | cons c rest ih =>
    have hc : c.isDigit = true := h c (by simp)
    have hne : c ≠ '_' := isDigit_ne hc (by decide)
    rw [pyDigitsAux.eq_def]
    simp only [hne, if_false, hc, if_true]
    rw [ih fun x hx => h x (by simp [hx])]
    simp [decimalValFrom]

theorem pyStrip_of_no_ws {l : List Char} (h : ∀ c ∈ l, isPyWs c = false) :
    pyStrip l = l := by
  have h1 : l.dropWhile isPyWs = l := by
    cases l with
    | nil => rfl
    | cons c rest => simp [List.dropWhile_cons, h c (by simp)]
  have h2 : l.reverse.dropWhile isPyWs = l.reverse := by
    cases hrev : l.reverse with
    | nil => rfl
    | cons c rest =>
      have hc : c ∈ l := by
        have : c ∈ l.reverse := by rw [hrev]; simp
        simpa using this
      simp [List.dropWhile_cons, h c hc]
  rw [pyStrip, h1, h2, List.reverse_reverse]

theorem pyInt_all_digits {l : List Char} (hne : l ≠ [])
    (hdig : ∀ c ∈ l, c.isDigit = true) :
    pyInt l = some ((decimalValFrom 0 l : Nat) : Int) := by
  have hstrip : pyStrip l = l :=
    pyStrip_of_no_ws fun c hc => isDigit_not_ws (hdig c hc)
  cases l with
  | nil => exact absurd rfl hne
  | cons c rest =>
    have hc : c.isDigit = true := hdig c (by simp)
    have hminus : c ≠ '-' := isDigit_ne hc (by decide)
    have hplus : c ≠ '+' := isDigit_ne hc (by decide)
    have hrest : ∀ x ∈ rest, x.isDigit = true := fun x hx => hdig x (by simp [hx])
    rw [pyInt.eq_def, hstrip]
    simp only [hminus, if_false, hplus]
    rw [pyIntDigits.eq_def]
    simp only [hc, if_true]
    rw [pyDigitsAux_all_digits hrest]
    simp [decimalValFrom]

theorem pyInt_natToChars (n : Nat) : pyInt (natToChars n) = some (n : Int) := by
  rw [pyInt_all_digits (natToChars_ne_nil n) (natToChars_all_digits n),
      natToChars_val n]

theorem natToChars_no_dot (n : Nat) : ∀ c ∈ natToChars n, c ≠ '.' :=
  fun c hc => isDigit_ne (natToChars_all_digits n c hc) (by decide)

theorem splitOnDot_ne_nil (l : List Char) : splitOnDot l ≠ [] := by
  cases l with
  | nil => simp [splitOnDot]
  | cons c rest =>
    by_cases h : c = '.'
    · simp [splitOnDot, h]
    · simp only [splitOnDot, h, if_false]
      cases splitOnDot rest <;> simp

theorem splitOnDot_no_dot {l : List Char} (h : ∀ c ∈ l, c ≠ '.') :
    splitOnDot l = [l] := by
  induction l with
  | nil => rfl
  | cons c rest ih =>
    have hc : c ≠ '.' := h c (by simp)
    simp only [splitOnDot, hc, if_false]
    rw [ih fun x hx => h x (by simp [hx])]

theorem splitOnDot_append_dot {a : List Char} (rest : List Char)
    (h : ∀ c ∈ a, c ≠ '.') :
    splitOnDot (a ++ '.' :: rest) = a :: splitOnDot rest := by
  induction a with
  | nil => simp [splitOnDot]
  | cons c a' ih =>
    have hc : c ≠ '.' := h c (by simp)
    simp only [List.cons_append, splitOnDot, hc, if_false, List.append_eq]
    rw [ih fun x hx => h x (by simp [hx])]

theorem intToChars_ofNat (n : Nat) : intToChars (n : Int) = natToChars n := by
  simp [intToChars]

/-- Parsing the canonical serialisation of a non-negative version triple
recovers the triple. -/
theorem parseVersion_serializeVersion (x y z : Nat) :
    parseVersion (serializeVersion ((x : Int), (y : Int), (z : Int))) =
      some ((x : Int), (y : Int), (z : Int)) := by
  simp only [serializeVersion, intToChars_ofNat]
  unfold parseVersion
  rw [List.append_assoc, List.cons_append,
      splitOnDot_append_dot _ (natToChars_no_dot x),
      splitOnDot_append_dot _ (natToChars_no_dot y),
      splitOnDot_no_dot (natToChars_no_dot z)]
  simp [pyInt_natToChars]

theorem replaceFirst_no_occur {pat l : List Char} (repl : List Char)
    (h : containsSub pat l = false) :
    replaceFirst pat repl l = l := by
  induction l with
  | nil =>
    have : pat.isEmpty = false := by simpa [containsSub] using h
    simp [replaceFirst, this]
  | cons c rest ih =>
    rw [containsSub.eq_def] at h
    simp only [Bool.or_eq_false_iff] at h
    rw [replaceFirst.eq_def]
    simp [h.1, ih h.2]

theorem replaceAllF_no_occur {pat : List Char} (repl : List Char) :
    ∀ (fuel : Nat) (l : List Char), l.length ≤ fuel →
      containsSub pat l = false → replaceAllF pat repl fuel l = l := by
  intro fuel
  induction fuel with
  | zero => intro l _ _; rw [replaceAllF.eq_def]
  | succ fuel ih =>
    intro l hlen h
    cases l with
    | nil => rw [replaceAllF.eq_def]
    | cons c rest =>
      rw [containsSub.eq_def] at h
      simp only [Bool.or_eq_false_iff] at h
      have hlen' : rest.length ≤ fuel := by simp at hlen; omega
      rw [replaceAllF.eq_def]
      simp [h.1, ih rest hlen' h.2]

theorem replaceAll_no_occur {pat l : List Char} (repl : List Char)
    (h : containsSub pat l = false) :
    replaceAll pat repl l = l :=
  replaceAllF_no_occur repl l.length l le_rfl h

theorem validateChangelog_version_irrel (v w : List Char) (f : Option (List Char)) :
    validateChangelog v f = validateChangelog w f := rfl

/-! ## Claim theorems: version model and artifact substitution -/

/-- C6: `validate_changelog` returns false when the changelog file is
missing or its pending `[Unreleased]` section is absent (and hence also
for an empty or whitespace-only one, whose stripped body has length 0),
and for an existing section it returns true exactly when the stripped
section content has at least the 20-character minimum length. -/
theorem c6_validate_changelog_threshold (v c : List Char) :
    validateChangelog v none = false ∧
    (findUnreleasedBody c = none → validateChangelog v (some c) = false) ∧
    (validateChangelog v (some c) = true ↔
      ∃ b, findUnreleasedBody c = some b ∧ 20 ≤ (pyStrip b).length) := by
  refine ⟨rfl, ?_, ?_⟩
  · intro h
    simp [validateChangelog, getChangelogEntry, h]
  · cases hb : findUnreleasedBody c with
    | none => simp [validateChangelog, getChangelogEntry, hb]
    | some b =>
      simp only [validateChangelog, getChangelogEntry, hb]
      constructor
      · intro h
        refine ⟨b, rfl, ?_⟩
        by_contra hlt
        simp [List.isEmpty_iff, show (pyStrip b).length < 20 by omega] at h
      · rintro ⟨b', hb', hlen⟩
        cases hb'
        have hne : (pyStrip b).isEmpty = false := by
          cases hpy : pyStrip b with
          | nil => rw [hpy] at hlen; simp at hlen
          | cons _ _ => rfl
        simp [hne, show ¬(pyStrip b).length < 20 by omega]

/-- Witness for C6 at a missing changelog and at a concrete changelog
whose stripped pending body has 24 characters. -/
theorem c6_witness :
    validateChangelog [] none = false ∧
    validateChangelog [] (some ("## [Unreleased]\nabcdefghijklmnopqrstuvwx".toList)) = true :=
  ⟨(c6_validate_changelog_threshold [] []).1,
   ((c6_validate_changelog_threshold []
      ("## [Unreleased]\nabcdefghijklmnopqrstuvwx".toList)).2.2).mpr
     ⟨("abcdefghijklmnopqrstuvwx".toList), by decide, by decide⟩⟩

/-- C7: on the canonical serialisation of any non-negative version
triple, `bump_minor` increments the minor component and zeroes the
patch, `bump_major` increments the major component and zeroes minor and
patch, and `bump_patch` increments the patch component. -/
theorem c7_bump_zeroing_laws (x y z : Nat) :
    bumpMinor (serializeVersion ((x : Int), (y : Int), (z : Int))) =
      some (serializeVersion ((x : Int), ((y + 1 : Nat) : Int), (0 : Int))) ∧
    bumpMajor (serializeVersion ((x : Int), (y : Int), (z : Int))) =
      some (serializeVersion (((x + 1 : Nat) : Int), (0 : Int), (0 : Int))) ∧
    bumpPatch (serializeVersion ((x : Int), (y : Int), (z : Int))) =
      some (serializeVersion ((x : Int), (y : Int), ((z + 1 : Nat) : Int))) := by
  have h1 : ((y : Int) + 1) = ((y + 1 : Nat) : Int) := by push_cast; ring
  have h2 : ((x : Int) + 1) = ((x + 1 : Nat) : Int) := by push_cast; ring
  have h3 : ((z : Int) + 1) = ((z + 1 : Nat) : Int) := by push_cast; ring
  refine ⟨?_, ?_, ?_⟩
  · rw [bumpMinor, parseVersion_serializeVersion]
    simp only [Option.map_some', serializeVersion, h1]
    rfl
  · rw [bumpMajor, parseVersion_serializeVersion]
    simp only [Option.map_some', serializeVersion, h2]
    rw [List.append_assoc]
    rfl
  · rw [bumpPatch, parseVersion_serializeVersion]
    simp only [Option.map_some', serializeVersion, h3]

/-- C8 counterexample: contrary to the claim that `parse_version` fails
on a negative component, the input `1.-1.0` parses successfully, because
Python's `int` accepts a sign. -/
theorem c8_counterexample :
    parseVersion ("1.-1.0".toList) = some (1, -1, 0) ∧ (-1 : Int) < 0 := by
  decide

/-- C8 (amended): `parse_version` succeeds exactly when the input splits
on dots into exactly three components each accepted by Python's `int`
(which also admits signs, surrounding whitespace, and interior
underscores); every other input raises the invalid-format error. -/
theorem c8_parse_accepts_python_int_triples (s : List Char) :
    (∃ v, parseVersion s = some v) ↔
      ((splitOnDot s).length = 3 ∧ ∀ p ∈ splitOnDot s, (pyInt p).isSome = true) := by
  constructor
  · rintro ⟨v, hv⟩
    rw [parseVersion.eq_def] at hv
    split at hv
    · next a b c heq =>
      split at hv
      · next xa xb xc ha hb hc =>
        refine ⟨by rw [heq]; rfl, ?_⟩
        intro p hp
        rw [heq] at hp
        simp only [List.mem_cons, List.not_mem_nil, or_false] at hp
        rcases hp with hp | hp | hp <;> subst hp <;> simp [ha, hb, hc]
      · next => exact absurd hv (by simp)
    · next => exact absurd hv (by simp)
  · rintro ⟨hlen, hall⟩
    rcases hsp : splitOnDot s with _ | ⟨a, _ | ⟨b, _ | ⟨c, _ | ⟨d, tl⟩⟩⟩⟩ <;>
      rw [hsp] at hlen <;> simp at hlen
    obtain ⟨xa, hxa⟩ := Option.isSome_iff_exists.mp (hall a (by rw [hsp]; simp))
    obtain ⟨xb, hxb⟩ := Option.isSome_iff_exists.mp (hall b (by rw [hsp]; simp))
    obtain ⟨xc, hxc⟩ := Option.isSome_iff_exists.mp (hall c (by rw [hsp]; simp))
    refine ⟨(xa, xb, xc), ?_⟩
    rw [parseVersion.eq_def, hsp]
    simp [hxa, hxb, hxc]

/-- Witness for the amended C8 claim: `1.2.3` splits into three
int-parseable parts and hence parses. -/
theorem c8_witness : ∃ v, parseVersion ("1.2.3".toList) = some v :=
  (c8_parse_accepts_python_int_triples ("1.2.3".toList)).mpr
    ⟨by decide, by decide⟩

/-- C9 counterexample: `01.2.3` is parsed successfully, but
re-serialising the parsed triple yields `1.2.3`, so the parse/serialize
round trip is not lossless on every accepted version string. -/
theorem c9_counterexample :
    (parseVersion ("01.2.3".toList)).isSome = true ∧
    (parseVersion ("01.2.3".toList)).map serializeVersion ≠
      some ("01.2.3".toList) := by
  decide

/-- C9 (amended): on canonically serialised version strings (components
rendered as plain decimal numerals), parsing and re-serialising is the
identity. -/
theorem c9_roundtrip_canonical (x y z : Nat) :
    (parseVersion (serializeVersion ((x : Int), (y : Int), (z : Int)))).map
        serializeVersion =
      some (serializeVersion ((x : Int), (y : Int), (z : Int))) := by
  rw [parseVersion_serializeVersion]
  rfl

/-- The concrete run state of the C5 counterexample: `pom.xml` does not
contain the old version pattern. -/
def c5St : St :=
  ⟨⟨some ("<project><version>9.9.9</version></project>".toList),
    some ("class M".toList), some ("readme".toList), some ("cl".toList), none⟩,
   false, []⟩

/-- C5 counterexample: on a `pom.xml` that does not contain
`<version>1.0.0</version>`, `update_pom_xml` succeeds, writes the file
back unchanged, and reports no failure — the no-match is silently
swallowed, contrary to the claim. -/
theorem c5_counterexample :
    containsSub (verTag ("1.0.0".toList))
        ("<project><version>9.9.9</version></project>".toList) = false ∧
    updatePomXmlStep ("1.0.0".toList) ("1.1.0".toList) c5St =
      Except.ok { c5St with events := [Event.wrote FileTag.pom] } := by
  exact ⟨by decide, rfl⟩

/-- C5 (amended): when an artifact does not contain the declared old
version pattern, the substitution silently leaves the content unchanged
and the step still succeeds (a file write of identical content, no
failure reported to the caller). -/
theorem c5_no_match_silent_noop (oldV newV : List Char) (st : St)
    (cP cJ : List Char)
    (hpom : st.fs.pomXml = some cP)
    (hmj : st.fs.mainJava = some cJ)
    (hP : containsSub (verTag oldV) cP = false)
    (hJ : containsSub (javaVerLit oldV) cJ = false) :
    updatePomXmlStep oldV newV st =
      Except.ok { st with events := st.events ++ [Event.wrote FileTag.pom] } ∧
    updateMainJavaStep oldV newV st =
      Except.ok { st with events := st.events ++ [Event.wrote FileTag.mainJava] } := by
  constructor
  · rw [updatePomXmlStep, hpom]
    simp only [updatePomContent, replaceFirst_no_occur _ hP]
    rw [← hpom]
  · rw [updateMainJavaStep, hmj]
    simp only [updateMainJavaContent, replaceAll_no_occur _ hJ]
    rw [← hmj]

/-- Witness for the amended C5 theorem at a concrete no-match state. -/
theorem c5_witness :
    updatePomXmlStep ("1.0.0".toList) ("1.1.0".toList) c5St =
      Except.ok { c5St with events := c5St.events ++ [Event.wrote FileTag.pom] } ∧
    updateMainJavaStep ("1.0.0".toList) ("1.1.0".toList) c5St =
      Except.ok { c5St with events := c5St.events ++ [Event.wrote FileTag.mainJava] } :=
  c5_no_match_silent_noop ("1.0.0".toList) ("1.1.0".toList) c5St
    ("<project><version>9.9.9</version></project>".toList) ("class M".toList)
    rfl rfl (by decide) (by decide)

/-- C10: calling `restore_backups` when no backup was captured in this
run (flag unset) or when the staging directory is absent is a no-op:
the state, and in particular each of the four declared files, is left
unchanged. -/
theorem c10_restore_without_backup_noop (st : St)
    (h : st.backupsCreated = false ∨ st.fs.backupDir = none) :
    restoreBackups st = st ∧
    (restoreBackups st).fs.pomXml = st.fs.pomXml ∧
    (restoreBackups st).fs.mainJava = st.fs.mainJava ∧
    (restoreBackups st).fs.readme = st.fs.readme ∧
    (restoreBackups st).fs.changelog = st.fs.changelog := by
  have hmain : restoreBackups st = st := by
    rcases h with h | h
    · simp [restoreBackups, h]
    · rw [restoreBackups.eq_def]
      cases hb : st.backupsCreated <;> simp [h]
  exact ⟨hmain, by rw [hmain], by rw [hmain], by rw [hmain], by rw [hmain]⟩

/-- Witness for C10 at a concrete state with the flag unset. -/
theorem c10_witness :
    restoreBackups c5St = c5St ∧
    (restoreBackups c5St).fs.pomXml = c5St.fs.pomXml ∧
    (restoreBackups c5St).fs.mainJava = c5St.fs.mainJava ∧
    (restoreBackups c5St).fs.readme = c5St.fs.readme ∧
    (restoreBackups c5St).fs.changelog = c5St.fs.changelog :=
  c10_restore_without_backup_noop c5St (Or.inl rfl)

/-! ## Claim theorems: orchestrator -/

/-- C2: on a non-dry run whose pending changelog section fails
validation, `main` exits non-zero before capturing any backup and
before mutating any file — the final state is exactly the initial one
(empty trace, flag unset, all files untouched).  The same conclusion
holds when reading or parsing the current version already fails. -/
theorem c2_validation_failure_aborts_untouched (args : Args) (env : Env) (fs0 : FS)
    (hdry : args.dryRun = false)
    (hval : validateChangelog [] fs0.changelog = false) :
    (mainRun args env fs0).1 ≠ 0 ∧
    (mainRun args env fs0).2 = ⟨fs0, false, []⟩ := by
  rcases hv : getCurrentVersion fs0 with e | cv
  · refine ⟨?_, ?_⟩ <;> simp [mainRun, hv]
  · rcases hb : bumpOf args cv with _ | nv
    · refine ⟨?_, ?_⟩ <;> simp [mainRun, hv, hb]
    · have hval' : validateChangelog nv fs0.changelog = false := by
        rw [validateChangelog_version_irrel nv []]; exact hval
      refine ⟨?_, ?_⟩ <;> simp [mainRun, hv, hb, hdry, hval']

/-- Witness for C2: a concrete run with a missing changelog aborts with
the initial state intact. -/
theorem c2_witness :
    (mainRun ⟨false, false, false, false, false, false, false, false⟩
        ⟨fun _ => true, [], [], []⟩
        ⟨some ("<version>1.2.3</version>".toList), none, none, none, none⟩).1 ≠ 0 ∧
    (mainRun ⟨false, false, false, false, false, false, false, false⟩
        ⟨fun _ => true, [], [], []⟩
        ⟨some ("<version>1.2.3</version>".toList), none, none, none, none⟩).2 =
      ⟨⟨some ("<version>1.2.3</version>".toList), none, none, none, none⟩, false, []⟩ :=
  c2_validation_failure_aborts_untouched _ _ _ rfl (by decide)

/-! ### Event-trace machinery for the ordering invariant -/

/-- The state a step result carries, whether it succeeded or failed. -/
def resSt : StepRes → St
  | .ok st => st
  | .error (_, st) => st

/-- Scanning check of the ordering invariant: a `wrote` event is
permitted only after a `backupCaptured` event has occurred. -/
def eventsOk : Bool → List Event → Bool
  | _, [] => true
  | _, Event.backupCaptured :: rest => eventsOk true rest
  | backed, Event.wrote _ :: rest => backed && eventsOk backed rest
  | backed, Event.ran _ :: rest => eventsOk backed rest

theorem eventsOk_true (l : List Event) : eventsOk true l = true := by
  induction l with
  | nil => rfl
  | cons e rest ih => cases e <;> simp [eventsOk, ih]

/-- A step result extends a state's trace (never rewrites history). -/
def extendsFrom (st : St) (r : StepRes) : Prop :=
  ∃ l, (resSt r).events = st.events ++ l

theorem extendsFrom_trans_st {a b : St} {r : StepRes}
    (h1 : ∃ l, b.events = a.events ++ l) (h2 : extendsFrom b r) :
    extendsFrom a r := by
  rcases h1 with ⟨l₁, hl₁⟩
  rcases h2 with ⟨l₂, hl₂⟩
  exact ⟨l₁ ++ l₂, by rw [hl₂, hl₁, List.append_assoc]⟩

theorem extendsFrom_bind {st : St} {r : StepRes} {g : St → StepRes}
    (h1 : extendsFrom st r) (h2 : ∀ s, extendsFrom s (g s)) :
    extendsFrom st (bindStep r g) := by
  cases r with
  | error e => exact h1
  | ok s =>
    rcases h1 with ⟨l₁, hl₁⟩
    rcases h2 s with ⟨l₂, hl₂⟩
    refine ⟨l₁ ++ l₂, ?_⟩
    have : resSt (Except.ok s : StepRes) = s := rfl
    rw [this] at hl₁
    simp [bindStep, hl₂, hl₁]

theorem restoreFile_events (tag : FileTag) (snap : Option (List Char))
    (put : List Char → FS → FS) (st : St) :
    ∃ l, (restoreFile tag snap put st).events = st.events ++ l := by
  cases snap with
  | some c => exact ⟨[Event.wrote tag], rfl⟩
  | none => exact ⟨[], by simp [restoreFile]⟩

theorem events_ext_trans {a b c : St}
    (h1 : ∃ l, b.events = a.events ++ l) (h2 : ∃ l, c.events = b.events ++ l) :
    ∃ l, c.events = a.events ++ l := by
  rcases h1 with ⟨l₁, hl₁⟩
  rcases h2 with ⟨l₂, hl₂⟩
  exact ⟨l₁ ++ l₂, by rw [hl₂, hl₁, List.append_assoc]⟩

theorem restoreBackups_events (st : St) :
    ∃ l, (restoreBackups st).events = st.events ++ l := by
  rw [restoreBackups.eq_def]
  cases hb : st.backupsCreated with
  | false => exact ⟨[], by simp⟩
  | true =>
    simp only [Bool.not_true]
    cases hd : st.fs.backupDir with
    | none => exact ⟨[], by simp⟩
    | some b =>
      simp only [Bool.false_eq_true, if_false]
      exact events_ext_trans
        (events_ext_trans
          (events_ext_trans (restoreFile_events _ _ _ st) (restoreFile_events _ _ _ _))
          (restoreFile_events _ _ _ _))
        (restoreFile_events _ _ _ _)

theorem runCommand_extends (env : Env) (c : Cmd) (st : St) :
    extendsFrom st (runCommand env c st) := by
  rw [runCommand]
  cases h : env.cmdOk c with
  | true => exact ⟨[Event.ran c], by simp [resSt]⟩
  | false =>
    simp only [Bool.false_eq_true, if_false]
    rcases restoreBackups_events { st with events := st.events ++ [Event.ran c] }
      with ⟨l, hl⟩
    exact ⟨[Event.ran c] ++ l, by simp [resSt, hl]⟩

theorem updatePomXmlStep_extends (o n : List Char) (st : St) :
    extendsFrom st (updatePomXmlStep o n st) := by
  rw [updatePomXmlStep]
  cases st.fs.pomXml with
  | none => exact ⟨[], by simp [resSt]⟩
  | some c => exact ⟨[Event.wrote .pom], by simp [resSt]⟩

theorem updateMainJavaStep_extends (o n : List Char) (st : St) :
    extendsFrom st (updateMainJavaStep o n st) := by
  rw [updateMainJavaStep]
  cases st.fs.mainJava with
  | none => exact ⟨[], by simp [resSt]⟩
  | some c => exact ⟨[Event.wrote .mainJava], by simp [resSt]⟩

theorem updateReadmeStep_extends (o n : List Char) (st : St) :
    extendsFrom st (updateReadmeStep o n st) := by
  rw [updateReadmeStep]
  cases st.fs.readme with
  | none => exact ⟨[], by simp [resSt]⟩
  | some c => exact ⟨[Event.wrote .readme], by simp [resSt]⟩

theorem updateChangelogStep_events (v t : List Char) (st : St) :
    ∃ l, (updateChangelogStep v t st).events = st.events ++ l := by
  rw [updateChangelogStep.eq_def]
  cases st.fs.changelog with
  | none => exact ⟨[], by simp⟩
  | some c => exact ⟨[Event.wrote .changelog], rfl⟩

theorem cleanupBackupsStep_events (st : St) :
    (cleanupBackupsStep st).events = st.events := by
  rw [cleanupBackupsStep.eq_def]
  cases st.fs.backupDir <;> simp

theorem createGithubReleaseStep_extends (env : Env) (st : St) :
    extendsFrom st (createGithubReleaseStep env st) := by
  rw [createGithubReleaseStep]
  cases h1 : env.cmdOk Cmd.ghVersionCheck with
  | false => exact ⟨[Event.ran Cmd.ghVersionCheck], by simp [resSt]⟩
  | true =>
    simp only [Bool.not_true, if_false, Bool.false_eq_true]
    cases h2 : env.cmdOk Cmd.ghAuthStatus with
    | false =>
      simp only [Bool.not_false, if_true]
      exact ⟨[Event.ran Cmd.ghVersionCheck, Event.ran Cmd.ghAuthStatus],
        by simp [resSt]⟩
    | true =>
      simp only [Bool.not_true, if_false, Bool.false_eq_true]
      refine extendsFrom_trans_st
        ⟨[Event.ran Cmd.ghVersionCheck, Event.ran Cmd.ghAuthStatus], by simp⟩
        (runCommand_extends env Cmd.ghReleaseCreate _)

theorem deployPhase_extends (args : Args) (env : Env) (st : St) :
    extendsFrom st (deployPhase args env st) := by
  rw [deployPhase]
  by_cases h1 : args.noDeploy <;> by_cases h2 : isYes env.confirmDeploy <;>
    simp only [h1, h2, Bool.not_true, Bool.not_false, if_true, if_false] <;>
    first
      | exact runCommand_extends env Cmd.mvnDeploy st
      | exact ⟨[], by simp [resSt]⟩

theorem mutatePhase_extends (cv nv t : List Char) (st : St) :
    extendsFrom st (mutatePhase cv nv t st) := by
  rw [mutatePhase]
  refine extendsFrom_bind (updatePomXmlStep_extends _ _ _) fun s2 => ?_
  refine extendsFrom_bind (updateMainJavaStep_extends _ _ _) fun s3 => ?_
  refine extendsFrom_bind (updateReadmeStep_extends _ _ _) fun s4 => ?_
  exact ⟨_, (updateChangelogStep_events nv t s4).choose_spec⟩

theorem testPhase_extends (args : Args) (env : Env) (st : St) :
    extendsFrom st (testPhase args env st) := by
  rw [testPhase]
  by_cases hsk : args.skipTests
  · simp only [hsk, if_true]
    exact ⟨[], by simp [resSt]⟩
  · simp only [hsk, if_false]
    exact runCommand_extends env Cmd.mvnTest st

theorem pushPhase_extends (args : Args) (env : Env) (st : St) :
    extendsFrom st (pushPhase args env st) := by
  rw [pushPhase]
  by_cases hp : args.noPush
  · simp only [hp, Bool.not_true, Bool.false_eq_true, if_false]
    exact ⟨[], by simp [resSt]⟩
  · simp only [hp, Bool.not_false, if_true]
    exact extendsFrom_bind (runCommand_extends _ _ _) fun s =>
      runCommand_extends _ _ _

theorem ghPhase_extends (args : Args) (env : Env) (st : St) :
    extendsFrom st (ghPhase args env st) := by
  rw [ghPhase]
  by_cases hg : args.noGithubRelease
  · simp only [hg, Bool.not_true, Bool.false_eq_true, if_false]
    exact ⟨[], by simp [resSt]⟩
  · simp only [hg, Bool.not_false, if_true]
    exact createGithubReleaseStep_extends env st

theorem tryBlock_extends_after_backup (args : Args) (env : Env)
    (cv nv : List Char) (st : St) :
    extendsFrom (createBackupsStep st) (tryBlock args env cv nv st) := by
  rw [tryBlock]
  refine extendsFrom_bind (mutatePhase_extends _ _ _ _) fun s5 => ?_
  refine extendsFrom_bind (testPhase_extends _ _ _) fun s6 => ?_
  refine extendsFrom_bind (runCommand_extends _ _ _) fun s7 => ?_
  refine extendsFrom_bind (deployPhase_extends _ _ _) fun s8 => ?_
  refine extendsFrom_bind (runCommand_extends _ _ _) fun s9 => ?_
  refine extendsFrom_bind (runCommand_extends _ _ _) fun s10 => ?_
  refine extendsFrom_bind (runCommand_extends _ _ _) fun s11 => ?_
  refine extendsFrom_bind (pushPhase_extends _ _ _) fun s12 => ?_
  refine extendsFrom_bind (ghPhase_extends _ _ _) fun s13 => ?_
  exact ⟨[], by simp [resSt, cleanupBackupsStep_events]⟩

/-- C3: along every path of the pipeline — every flag combination,
every environment, every initial filesystem — no write to a declared
file ever occurs before the backup capture has completed: the event
trace of any run satisfies the scanning invariant. -/
theorem c3_no_mutation_before_backup (args : Args) (env : Env) (fs0 : FS) :
    eventsOk false (mainRun args env fs0).2.events = true := by
  rcases hv : getCurrentVersion fs0 with e | cv
  · simp [mainRun, hv, eventsOk]
  rcases hb : bumpOf args cv with _ | nv
  · simp [mainRun, hv, hb, eventsOk]
  by_cases hdry : args.dryRun
  · simp [mainRun, hv, hb, hdry, eventsOk]
  by_cases hvc : validateChangelog nv fs0.changelog
  case neg => simp [mainRun, hv, hb, hdry, hvc, eventsOk]
  by_cases hconf : isYes env.confirmStart
  case neg => simp [mainRun, hv, hb, hdry, hvc, hconf, eventsOk]
  rcases tryBlock_extends_after_backup args env cv nv ⟨fs0, false, []⟩ with ⟨l, hl⟩
  rw [show (createBackupsStep (⟨fs0, false, []⟩ : St)).events =
      [Event.backupCaptured] from rfl] at hl
  rcases hr : tryBlock args env cv nv ⟨fs0, false, []⟩ with ⟨pe, st'⟩ | st'
  · rw [hr] at hl
    simp only [resSt] at hl
    rcases pe with n | _ | _
    · simp only [mainRun, hv, hb]
      simp [hdry, hvc, hconf, hr, hl, eventsOk, eventsOk_true]
    · rcases restoreBackups_events st' with ⟨l₂, hl₂⟩
      simp only [mainRun, hv, hb]
      simp [hdry, hvc, hconf, hr, hl₂, hl, eventsOk, eventsOk_true]
    · rcases restoreBackups_events st' with ⟨l₂, hl₂⟩
      simp only [mainRun, hv, hb]
      simp [hdry, hvc, hconf, hr, hl₂, hl, eventsOk, eventsOk_true]
  · rw [hr] at hl
    simp only [resSt] at hl
    simp only [mainRun, hv, hb]
    simp [hdry, hvc, hconf, hr, hl, eventsOk, eventsOk_true]

/-! ### C1: required-step failure triggers rollback and a non-zero exit -/

/-- The rollback outcome: the run terminated with a non-zero exit code
and each declared file holds its pre-run content again. -/
def restoredFail (r : Nat × St) (fs0 : FS) : Prop :=
  r.1 ≠ 0 ∧ r.2.fs.pomXml = fs0.pomXml ∧ r.2.fs.mainJava = fs0.mainJava ∧
  r.2.fs.readme = fs0.readme ∧ r.2.fs.changelog = fs0.changelog

/-- No git stage/commit/tag/push command was ever executed. -/
def noGitRan (evs : List Event) : Prop :=
  Event.ran Cmd.gitAdd ∉ evs ∧ Event.ran Cmd.gitCommit ∉ evs ∧
  Event.ran Cmd.gitTag ∉ evs ∧ Event.ran Cmd.gitPush ∉ evs ∧
  Event.ran Cmd.gitPushTags ∉ evs

/-- The deploy phase passes without aborting: it is disabled, declined
at the interactive gate, or the deploy command succeeds. -/
def deployPasses (args : Args) (env : Env) : Prop :=
  args.noDeploy = true ∨ isYes env.confirmDeploy = false ∨
    env.cmdOk Cmd.mvnDeploy = true

/-- C1: in a well-formed non-dry confirmed run with all four declared
files present, whenever a required external step is the first to exit
non-zero — run tests, build package, deploy, git stage, git commit,
git tag, git push, git push tags — the pipeline restores every captured
backup over its original path and terminates with a non-zero exit code;
moreover, when the test step fails, no git stage/commit/tag/push
command is ever executed. -/
theorem c1_required_step_failure_rolls_back (args : Args) (env : Env) (fs0 : FS)
    (pomC mjC rdC clC cv nv : List Char)
    (hpom : fs0.pomXml = some pomC)
    (hmj : fs0.mainJava = some mjC)
    (hrd : fs0.readme = some rdC)
    (hcl : fs0.changelog = some clC)
    (hver : getCurrentVersion fs0 = Except.ok cv)
    (hbump : bumpOf args cv = some nv)
    (hvc : validateChangelog nv fs0.changelog = true)
    (hdry : args.dryRun = false)
    (hyes : isYes env.confirmStart = true)
    (hskip : args.skipTests = false) :
    (env.cmdOk Cmd.mvnTest = false →
      restoredFail (mainRun args env fs0) fs0 ∧
      noGitRan (mainRun args env fs0).2.events) ∧
    (env.cmdOk Cmd.mvnTest = true → env.cmdOk Cmd.mvnPackage = false →
      restoredFail (mainRun args env fs0) fs0) ∧
    (env.cmdOk Cmd.mvnTest = true → env.cmdOk Cmd.mvnPackage = true →
      args.noDeploy = false → isYes env.confirmDeploy = true →
      env.cmdOk Cmd.mvnDeploy = false →
      restoredFail (mainRun args env fs0) fs0) ∧
    (env.cmdOk Cmd.mvnTest = true → env.cmdOk Cmd.mvnPackage = true →
      deployPasses args env → env.cmdOk Cmd.gitAdd = false →
      restoredFail (mainRun args env fs0) fs0) ∧
    (env.cmdOk Cmd.mvnTest = true → env.cmdOk Cmd.mvnPackage = true →
      deployPasses args env → env.cmdOk Cmd.gitAdd = true →
      env.cmdOk Cmd.gitCommit = false →
      restoredFail (mainRun args env fs0) fs0) ∧
    (env.cmdOk Cmd.mvnTest = true → env.cmdOk Cmd.mvnPackage = true →
      deployPasses args env → env.cmdOk Cmd.gitAdd = true →
      env.cmdOk Cmd.gitCommit = true → env.cmdOk Cmd.gitTag = false →
      restoredFail (mainRun args env fs0) fs0) ∧
    (env.cmdOk Cmd.mvnTest = true → env.cmdOk Cmd.mvnPackage = true →
      deployPasses args env → env.cmdOk Cmd.gitAdd = true →
      env.cmdOk Cmd.gitCommit = true → env.cmdOk Cmd.gitTag = true →
      args.noPush = false → env.cmdOk Cmd.gitPush = false →
      restoredFail (mainRun args env fs0) fs0) ∧
    (env.cmdOk Cmd.mvnTest = true → env.cmdOk Cmd.mvnPackage = true →
      deployPasses args env → env.cmdOk Cmd.gitAdd = true →
      env.cmdOk Cmd.gitCommit = true → env.cmdOk Cmd.gitTag = true →
      args.noPush = false → env.cmdOk Cmd.gitPush = true →
      env.cmdOk Cmd.gitPushTags = false →
      restoredFail (mainRun args env fs0) fs0) := by
  have hvc' : validateChangelog nv (some clC) = true := by rw [← hcl]; exact hvc
  refine ⟨?_, ?_, ?_, ?_, ?_, ?_, ?_, ?_⟩
  · intro hT
    constructor <;>
      simp [mainRun, hver, hbump, hvc, hvc', hdry, hyes, tryBlock, mutatePhase,
        testPhase, bindStep, createBackupsStep, updatePomXmlStep,
        updateMainJavaStep, updateReadmeStep, updateChangelogStep, runCommand,
        restoreBackups, restoreFile, hpom, hmj, hrd, hcl, hskip, hT,
        restoredFail, noGitRan]
  · intro hT hP
    simp [mainRun, hver, hbump, hvc, hvc', hdry, hyes, tryBlock, mutatePhase,
      testPhase, bindStep, createBackupsStep, updatePomXmlStep,
      updateMainJavaStep, updateReadmeStep, updateChangelogStep, runCommand,
      restoreBackups, restoreFile, hpom, hmj, hrd, hcl, hskip, hT, hP,
      restoredFail]
  · intro hT hP hnd hcd hD
    simp [mainRun, hver, hbump, hvc, hvc', hdry, hyes, tryBlock, mutatePhase,
      testPhase, deployPhase, bindStep, createBackupsStep, updatePomXmlStep,
      updateMainJavaStep, updateReadmeStep, updateChangelogStep, runCommand,
      restoreBackups, restoreFile, hpom, hmj, hrd, hcl, hskip, hT, hP, hnd,
      hcd, hD, restoredFail]
  · intro hT hP hdep hA
    have hD : args.noDeploy = false → isYes env.confirmDeploy = true →
        env.cmdOk Cmd.mvnDeploy = true := by
      intro h1 h2
      rcases hdep with hnd | hncd | hdok
      · rw [hnd] at h1; exact absurd h1 (by simp)
      · rw [hncd] at h2; exact absurd h2 (by simp)
      · exact hdok
    by_cases hnd2 : args.noDeploy <;> by_cases hcd2 : isYes env.confirmDeploy <;>
      simp [mainRun, tryBlock, mutatePhase, testPhase, deployPhase, bindStep,
        createBackupsStep, updatePomXmlStep, updateMainJavaStep,
        updateReadmeStep, updateChangelogStep, runCommand, restoreBackups,
        restoreFile, restoredFail, hD, *]
  · intro hT hP hdep hA hC
    have hD : args.noDeploy = false → isYes env.confirmDeploy = true →
        env.cmdOk Cmd.mvnDeploy = true := by
      intro h1 h2
      rcases hdep with hnd | hncd | hdok
      · rw [hnd] at h1; exact absurd h1 (by simp)
      · rw [hncd] at h2; exact absurd h2 (by simp)
      · exact hdok
    by_cases hnd2 : args.noDeploy <;> by_cases hcd2 : isYes env.confirmDeploy <;>
      simp [mainRun, tryBlock, mutatePhase, testPhase, deployPhase, bindStep,
        createBackupsStep, updatePomXmlStep, updateMainJavaStep,
        updateReadmeStep, updateChangelogStep, runCommand, restoreBackups,
        restoreFile, restoredFail, hD, *]
  · intro hT hP hdep hA hC hG
    have hD : args.noDeploy = false → isYes env.confirmDeploy = true →
        env.cmdOk Cmd.mvnDeploy = true := by
      intro h1 h2
      rcases hdep with hnd | hncd | hdok
      · rw [hnd] at h1; exact absurd h1 (by simp)
      · rw [hncd] at h2; exact absurd h2 (by simp)
      · exact hdok
    by_cases hnd2 : args.noDeploy <;> by_cases hcd2 : isYes env.confirmDeploy <;>
      simp [mainRun, tryBlock, mutatePhase, testPhase, deployPhase, bindStep,
        createBackupsStep, updatePomXmlStep, updateMainJavaStep,
        updateReadmeStep, updateChangelogStep, runCommand, restoreBackups,
        restoreFile, restoredFail, hD, *]
  · intro hT hP hdep hA hC hG hnp hPush
    have hD : args.noDeploy = false → isYes env.confirmDeploy = true →
        env.cmdOk Cmd.mvnDeploy = true := by
      intro h1 h2
      rcases hdep with hnd | hncd | hdok
      · rw [hnd] at h1; exact absurd h1 (by simp)
      · rw [hncd] at h2; exact absurd h2 (by simp)
      · exact hdok
    by_cases hnd2 : args.noDeploy <;> by_cases hcd2 : isYes env.confirmDeploy <;>
      simp [mainRun, tryBlock, mutatePhase, testPhase, deployPhase, pushPhase,
        bindStep, createBackupsStep, updatePomXmlStep, updateMainJavaStep,
        updateReadmeStep, updateChangelogStep, runCommand, restoreBackups,
        restoreFile, restoredFail, hD, *]
  · intro hT hP hdep hA hC hG hnp hPush hPT
    have hD : args.noDeploy = false → isYes env.confirmDeploy = true →
        env.cmdOk Cmd.mvnDeploy = true := by
      intro h1 h2
      rcases hdep with hnd | hncd | hdok
      · rw [hnd] at h1; exact absurd h1 (by simp)
      · rw [hncd] at h2; exact absurd h2 (by simp)
      · exact hdok
    by_cases hnd2 : args.noDeploy <;> by_cases hcd2 : isYes env.confirmDeploy <;>
      simp [mainRun, tryBlock, mutatePhase, testPhase, deployPhase, pushPhase,
        bindStep, createBackupsStep, updatePomXmlStep, updateMainJavaStep,
        updateReadmeStep, updateChangelogStep, runCommand, restoreBackups,
        restoreFile, restoredFail, hD, *]

set_option maxRecDepth 100000

/-- Concrete flags of the C1 witness run (all defaults). -/
def c1ArgsW : Args := ⟨false, false, false, false, false, false, false, false⟩

/-- Concrete environment of the C1 witness run: every command succeeds
except `mvn clean test`; both prompts are answered `y`. -/
def c1EnvW : Env :=
  ⟨fun c => !(c = Cmd.mvnTest), "y".toList, "y".toList, "2026-10-12".toList⟩

/-- Concrete initial filesystem of the C1 witness run. -/
def c1FsW : FS :=
  ⟨some ("<project><version>0.3.1</version></project>".toList),
   some ("String version = \"0.3.1\";".toList),
   some ("use <version>0.3.1</version> here".toList),
   some ("## [Unreleased]\n- added a new great feature\n\n[Unreleased]: u/compare/v0.3.1...HEAD".toList),
   none⟩

/-- Witness for C1: in the concrete run whose test step fails, the
pipeline exits non-zero with all four files restored and no git command
executed. -/
theorem c1_witness :
    restoredFail (mainRun c1ArgsW c1EnvW c1FsW) c1FsW ∧
    noGitRan (mainRun c1ArgsW c1EnvW c1FsW).2.events :=
  (c1_required_step_failure_rolls_back c1ArgsW c1EnvW c1FsW
      ("<project><version>0.3.1</version></project>".toList)
      ("String version = \"0.3.1\";".toList)
      ("use <version>0.3.1</version> here".toList)
      ("## [Unreleased]\n- added a new great feature\n\n[Unreleased]: u/compare/v0.3.1...HEAD".toList)
      ("0.3.1".toList) ("0.4.0".toList)
      rfl rfl rfl rfl rfl (by decide) (by decide) rfl (by decide)
      rfl).1 (by decide)

/-! ### C4: `update_changelog` promotes the pending section

The claim is settled for every document of the standard changelog
shape: arbitrary text before the pending heading (not containing an
earlier match), arbitrary section body, a trailing
`[Unreleased]: URL/compare/vPREV...HEAD` link, and an arbitrary rest of
the link block.  The side conditions are exactly the scan-uniqueness
facts the source regexes rely on, stated as decidable predicates that
mirror the scanners. -/

/-- During a leftmost-match scan of `l` followed by continuation `k`,
no position inside `l` starts an occurrence of `pat`. -/
def noHitBefore (pat k : List Char) : List Char → Bool
  | [] => true
  | c :: rest => (!(pat.isPrefixOf (c :: (rest ++ k)))) && noHitBefore pat k rest

/-- During the scan for the full comparison-link pattern, no position
inside `l` (followed by continuation `k`) starts a successful match. -/
def linkScanClear (k : List Char) : List Char → Bool
  | [] => true
  | c :: rest =>
    (if linkLabel.isPrefixOf (c :: (rest ++ k)) then
      (matchCompareLine
        (((c :: (rest ++ k)).drop linkLabel.length).takeWhile
          (fun x => x ≠ '\n'))).isNone
     else true) && linkScanClear k rest

/-- During the scan for `\[Unreleased\]: .+`, no position inside `l`
(followed by continuation `k`) starts a match. -/
def subScanClear (k : List Char) : List Char → Bool
  | [] => true
  | c :: rest =>
    (!(linkLabel.isPrefixOf (c :: (rest ++ k)) &&
       !((((c :: (rest ++ k)).drop linkLabel.length).takeWhile
           (fun x => x ≠ '\n')).isEmpty))) &&
    subScanClear k rest

theorem isPrefixOf_append_self (p x : List Char) : p.isPrefixOf (p ++ x) = true := by
  simp [ List.isPrefixOf_iff_prefix]

theorem takeWhile_append_of_all {p : Char → Bool} {a : List Char} (b : List Char)
    (h : ∀ c ∈ a, p c = true) :
    (a ++ b).takeWhile p = a ++ b.takeWhile p := by
  induction a with
  | nil => rfl
  | cons c rest ih =>
    simp only [List.cons_append, List.takeWhile_cons]
    rw [h c (by simp)]
    simp [ih fun x hx => h x (by simp [hx])]

theorem descFind_eq {p : Nat → Bool} {k₀ : Nat} :
    ∀ {K : Nat}, 1 ≤ k₀ → k₀ ≤ K → p k₀ = true →
      (∀ j, k₀ < j → j ≤ K → p j = false) → descFind p K = some k₀ := by
  intro K
  induction K with
  | zero => intro h1 h2; omega
  | succ K ih =>
    intro h1 h2 h3 h4
    by_cases he : k₀ = K + 1
    · subst he
      simp [descFind, h3]
    · have hlt : k₀ ≤ K := by omega
      have hK1 : p (K + 1) = false := h4 (K + 1) (by omega) le_rfl
      simp only [descFind, hK1, Bool.false_eq_true, if_false]
      exact ih h1 hlt h3 fun j hj hj' => h4 j hj (by omega)

theorem no_slash_no_compare {m : List Char} (h : ∀ c ∈ m, c ≠ '/') (i : Nat) :
    compareLit.isPrefixOf (m.drop i) = false := by
  cases hm : m.drop i with
  | nil => rfl
  | cons c rest =>
    have hc : c ∈ m := List.mem_of_mem_drop (by rw [hm]; simp)
    have hne : c ≠ '/' := h c hc
    have hbeq : ('/' == c) = false := beq_eq_false_iff_ne.mpr fun e => hne e.symm
    simp [compareLit, List.isPrefixOf, hbeq]

theorem isDigitDot_ne_slash {c : Char} (h : isDigitDot c = true) : c ≠ '/' := by
  rcases (by simpa [isDigitDot] using h : c.isDigit = true ∨ c = '.') with h' | h'
  · exact isDigit_ne h' (by decide)
  · subst h'; decide

theorem isDigitDot_ne_nl {c : Char} (h : isDigitDot c = true) : c ≠ '\n' := by
  rcases (by simpa [isDigitDot] using h : c.isDigit = true ∨ c = '.') with h' | h'
  · exact isDigit_ne h' (by decide)
  · subst h'; decide

theorem noCompareInTail {oldv : List Char}
    (hdd : ∀ c ∈ oldv, isDigitDot c = true) (i : Nat) (hi : 1 ≤ i) :
    compareLit.isPrefixOf ((compareLit ++ (oldv ++ dotsHead)).drop i) = false := by
  by_cases h9 : i ≤ 9
  · rw [List.drop_append_of_le_length (by simp [compareLit]; omega)]
    interval_cases i <;> simp [compareLit, List.isPrefixOf]
  · rw [show i = compareLit.length + (i - 10) from by simp [compareLit]; omega,
      ← List.drop_drop, List.drop_left]
    refine no_slash_no_compare (fun c hc => ?_) (i - 10)
    rcases List.mem_append.mp hc with h' | h'
    · exact isDigitDot_ne_slash (hdd c h')
    · simp [dotsHead] at h'
      rcases h' with rfl | rfl | rfl | rfl | rfl | rfl | rfl <;> decide

theorem matchTailDigits_at {oldv : List Char} (hone : oldv ≠ [])
    (hdd : ∀ c ∈ oldv, isDigitDot c = true) :
    matchTailDigits (oldv ++ dotsHead) = some oldv := by
  have hrun : (oldv ++ dotsHead).takeWhile isDigitDot = oldv ++ ['.', '.', '.'] := by
    rw [takeWhile_append_of_all _ hdd]
    rfl
  have hdrop : ∀ i : Nat, (oldv ++ dotsHead).drop (oldv.length + i) = dotsHead.drop i := by
    intro i
    rw [← List.drop_drop, List.drop_left]
  have hdesc : descFind (fun j => dotsHead.isPrefixOf ((oldv ++ dotsHead).drop j))
      (oldv ++ ['.', '.', '.']).length = some oldv.length := by
    apply descFind_eq
    · exact List.length_pos.mpr hone
    · simp [List.length_append]
    · rw [List.drop_left]
      simp [ List.isPrefixOf_iff_prefix]
    · intro j hj hj'
      simp only [List.length_append, List.length_cons, List.length_nil] at hj'
      have : j = oldv.length + 1 ∨ j = oldv.length + 2 ∨ j = oldv.length + 3 := by
        omega
      rcases this with h | h | h <;> subst h <;> rw [hdrop] <;> decide
  simp only [matchTailDigits, hrun, hdesc, List.take_left]

theorem matchCompareLine_at {url oldv : List Char} (hurl : url ≠ [])
    (hone : oldv ≠ []) (hdd : ∀ c ∈ oldv, isDigitDot c = true) :
    matchCompareLine (url ++ (compareLit ++ (oldv ++ dotsHead))) =
      some (url, oldv) := by
  have hmt : matchTailDigits
      ((url ++ (compareLit ++ (oldv ++ dotsHead))).drop
        (url.length + compareLit.length)) = some oldv := by
    rw [← List.drop_drop, List.drop_left, List.drop_left]
    exact matchTailDigits_at hone hdd
  have hdesc : descFind
      (fun k => compareLit.isPrefixOf
          ((url ++ (compareLit ++ (oldv ++ dotsHead))).drop k) &&
        (matchTailDigits ((url ++ (compareLit ++ (oldv ++ dotsHead))).drop
          (k + compareLit.length))).isSome)
      (url ++ (compareLit ++ (oldv ++ dotsHead))).length = some url.length := by
    apply descFind_eq
    · exact List.length_pos.mpr hurl
    · simp [List.length_append]
    · rw [List.drop_left, hmt]
      simp [isPrefixOf_append_self]
    · intro j hj hj'
      obtain ⟨i, hi1, rfl⟩ : ∃ i, 1 ≤ i ∧ j = url.length + i :=
        ⟨j - url.length, by omega, by omega⟩
      have hdropj : (url ++ (compareLit ++ (oldv ++ dotsHead))).drop
          (url.length + i) = (compareLit ++ (oldv ++ dotsHead)).drop i := by
        rw [← List.drop_drop, List.drop_left]
      rw [hdropj, noCompareInTail hdd i hi1]
      simp
  simp only [matchCompareLine, hdesc, hmt, List.take_left]

theorem replaceFirst_cons (pat repl : List Char) (c : Char) (rest : List Char) :
    replaceFirst pat repl (c :: rest) =
      if pat.isPrefixOf (c :: rest) then repl ++ (c :: rest).drop pat.length
      else c :: replaceFirst pat repl rest := rfl

theorem noHitBefore_cons (pat k : List Char) (c : Char) (rest : List Char) :
    noHitBefore pat k (c :: rest) =
      ((!(pat.isPrefixOf (c :: (rest ++ k)))) && noHitBefore pat k rest) := rfl

theorem replaceFirst_split {pat : List Char} (hp : pat ≠ []) (repl post : List Char) :
    ∀ pre, noHitBefore pat (pat ++ post) pre = true →
      replaceFirst pat repl (pre ++ (pat ++ post)) = pre ++ (repl ++ post) := by
  intro pre
  induction pre with
  | nil =>
    intro _
    simp only [List.nil_append]
    have h1 : pat.isPrefixOf (pat ++ post) = true := isPrefixOf_append_self _ _
    have h2 : (pat ++ post).drop pat.length = post := List.drop_left _ _
    cases hpat : pat with
    | nil => exact absurd hpat hp
    | cons p ps =>
      subst hpat
      rw [List.cons_append] at h1 h2 ⊢
      rw [replaceFirst_cons, h1, if_pos rfl, h2]
  | cons c pre' ih =>
    intro hclear
    rw [noHitBefore_cons] at hclear
    obtain ⟨hhead, htail⟩ := (Bool.and_eq_true _ _).mp hclear
    have hpf : pat.isPrefixOf (c :: (pre' ++ (pat ++ post))) = false := by
      rcases hb : pat.isPrefixOf (c :: (pre' ++ (pat ++ post))) with _ | _
      · rfl
      · rw [hb] at hhead; exact absurd hhead (by decide)
    rw [List.cons_append, replaceFirst_cons, hpf]
    simp only [Bool.false_eq_true, if_false]
    rw [ih htail, List.cons_append]

theorem findLinkSearch_cons (c : Char) (rest : List Char) :
    findLinkSearch (c :: rest) =
      if linkLabel.isPrefixOf (c :: rest) then
        (match matchCompareLine
            (((c :: rest).drop linkLabel.length).takeWhile (fun x => x ≠ '\n')) with
        | some g => some g
        | none => findLinkSearch rest)
      else findLinkSearch rest := rfl

theorem linkScanClear_cons (k : List Char) (c : Char) (rest : List Char) :
    linkScanClear k (c :: rest) =
      ((if linkLabel.isPrefixOf (c :: (rest ++ k)) then
          (matchCompareLine
            (((c :: (rest ++ k)).drop linkLabel.length).takeWhile
              (fun x => x ≠ '\n'))).isNone
        else true) && linkScanClear k rest) := rfl

theorem findLinkSearch_clear (k : List Char) :
    ∀ P, linkScanClear k P = true → findLinkSearch (P ++ k) = findLinkSearch k := by
  intro P
  induction P with
  | nil => intro _; rfl
  | cons c P' ih =>
    intro hclear
    rw [linkScanClear_cons] at hclear
    obtain ⟨hhead, htail⟩ := (Bool.and_eq_true _ _).mp hclear
    rw [List.cons_append, findLinkSearch_cons]
    by_cases hpref : linkLabel.isPrefixOf (c :: (P' ++ k)) = true
    · rw [if_pos hpref] at hhead ⊢
      cases hmc : matchCompareLine
          (((c :: (P' ++ k)).drop linkLabel.length).takeWhile (fun x => x ≠ '\n')) with
      | some g => rw [hmc] at hhead; exact absurd hhead (by simp)
      | none => exact ih htail
    · have hpf : linkLabel.isPrefixOf (c :: (P' ++ k)) = false :=
        Bool.not_eq_true _ ▸ (by simpa using hpref)
      rw [hpf]
      simp only [Bool.false_eq_true, if_false]
      exact ih htail

theorem findLinkSearch_pos {l : List Char} (hne : l ≠ [])
    (hpref : linkLabel.isPrefixOf l = true) {g : List Char × List Char}
    (h : matchCompareLine
        ((l.drop linkLabel.length).takeWhile (fun x => x ≠ '\n')) = some g) :
    findLinkSearch l = some g := by
  cases l with
  | nil => exact absurd rfl hne
  | cons c rest =>
    rw [findLinkSearch_cons, if_pos hpref, h]

theorem subLinkLinesF_cons (repl : List Char) (fuel : Nat) (c : Char)
    (rest : List Char) :
    subLinkLinesF repl (fuel + 1) (c :: rest) =
      if linkLabel.isPrefixOf (c :: rest) &&
          !((((c :: rest).drop linkLabel.length).takeWhile
              (fun x => x ≠ '\n')).isEmpty) then
        repl ++ subLinkLinesF repl fuel
          (((c :: rest).drop linkLabel.length).drop
            ((((c :: rest).drop linkLabel.length).takeWhile
              (fun x => x ≠ '\n')).length))
      else c :: subLinkLinesF repl fuel rest := rfl

theorem subScanClear_cons (k : List Char) (c : Char) (rest : List Char) :
    subScanClear k (c :: rest) =
      ((!(linkLabel.isPrefixOf (c :: (rest ++ k)) &&
         !((((c :: (rest ++ k)).drop linkLabel.length).takeWhile
             (fun x => x ≠ '\n')).isEmpty))) &&
       subScanClear k rest) := rfl

theorem subLinkLinesF_fuel (repl : List Char) :
    ∀ (fuel fuel' : Nat) (l : List Char), l.length ≤ fuel → l.length ≤ fuel' →
      subLinkLinesF repl fuel l = subLinkLinesF repl fuel' l := by
  intro fuel
  induction fuel with
  | zero =>
    intro fuel' l h _
    have : l = [] := List.length_eq_zero.mp (by omega)
    subst this
    cases fuel' <;> rfl
  | succ fuel ih =>
    intro fuel' l hl hl'
    cases l with
    | nil => cases fuel' <;> rfl
    | cons c rest =>
      cases fuel' with
      | zero => simp at hl'
      | succ fuel'' =>
        rw [subLinkLinesF_cons, subLinkLinesF_cons]
        have hrest : rest.length ≤ fuel := by simp at hl; omega
        have hrest' : rest.length ≤ fuel'' := by simp at hl'; omega
        by_cases hcond : (linkLabel.isPrefixOf (c :: rest) &&
            !((((c :: rest).drop linkLabel.length).takeWhile
                (fun x => x ≠ '\n')).isEmpty)) = true
        · rw [if_pos hcond, if_pos hcond]
          have hlen : (((c :: rest).drop linkLabel.length).drop
              ((((c :: rest).drop linkLabel.length).takeWhile
                (fun x => x ≠ '\n')).length)).length ≤ rest.length := by
            simp [List.length_drop, linkLabel]
          rw [ih fuel'' _ (by omega) (by omega)]
        · rw [if_neg hcond, if_neg hcond, ih fuel'' rest hrest hrest']

theorem subLinkLines_clear (repl k : List Char) :
    ∀ P, subScanClear k P = true →
      subLinkLines repl (P ++ k) = P ++ subLinkLines repl k := by
  intro P
  induction P with
  | nil => simp [subLinkLines]
  | cons c P' ih =>
    intro hclear
    rw [subScanClear_cons] at hclear
    obtain ⟨hhead, htail⟩ := (Bool.and_eq_true _ _).mp hclear
    have hcond : (linkLabel.isPrefixOf (c :: (P' ++ k)) &&
        !((((c :: (P' ++ k)).drop linkLabel.length).takeWhile
            (fun x => x ≠ '\n')).isEmpty)) = false := by
      rcases hb : (linkLabel.isPrefixOf (c :: (P' ++ k)) &&
          !((((c :: (P' ++ k)).drop linkLabel.length).takeWhile
              (fun x => x ≠ '\n')).isEmpty)) with _ | _
      · rfl
      · rw [hb] at hhead; exact absurd hhead (by decide)
    show subLinkLinesF repl ((c :: P' ++ k).length) (c :: P' ++ k) = _
    rw [List.cons_append, List.length_cons, subLinkLinesF_cons, hcond]
    simp only [Bool.false_eq_true, if_false]
    rw [show subLinkLinesF repl (P' ++ k).length (P' ++ k) =
        subLinkLines repl (P' ++ k) from rfl, ih htail, List.cons_append]

theorem subLinkLinesF_pos {repl l : List Char} (hl : l ≠ [])
    (hpref : linkLabel.isPrefixOf l = true)
    (hne : ((l.drop linkLabel.length).takeWhile
        (fun x => x ≠ '\n')).isEmpty = false) :
    subLinkLines repl l =
      repl ++ subLinkLinesF repl (l.length - 1)
        ((l.drop linkLabel.length).drop
          (((l.drop linkLabel.length).takeWhile (fun x => x ≠ '\n')).length)) := by
  cases l with
  | nil => exact absurd rfl hl
  | cons c rest =>
    show subLinkLinesF repl (rest.length + 1) (c :: rest) = _
    rw [subLinkLinesF_cons, hpref, hne]
    simp

/-- The full trailing comparison-link text
`[Unreleased]: URL/compare/vPREV...HEAD` followed by the rest of the
document. -/
def linkText (url oldv suffix : List Char) : List Char :=
  linkLabel ++ (url ++ (compareLit ++ (oldv ++ (dotsHead ++ suffix))))

/-- C4: on every changelog document of the standard shape — text `pre`
before the pending `## [Unreleased]` heading, section body `mid`, a
trailing `[Unreleased]: URL/compare/vPREV...HEAD` link and a remainder
`suffix` (empty or starting a new line), with the scan-uniqueness side
conditions the source regexes rely on — `update_changelog` relabels the
pending heading to the dated, versioned heading, inserts the fresh
empty pending section with the `Added/Changed/Deprecated/Removed/Fixed/
Security` template directly above it, rewrites the pending comparison
link to anchor the new version, and appends the link comparing the
previous version to the new one. -/
theorem c4_update_changelog_promotes
    (ver today pre mid url oldv suffix : List Char)
    (hurl_ne : url ≠ [])
    (hurl_nl : ∀ c ∈ url, c ≠ '\n')
    (holdv_ne : oldv ≠ [])
    (holdv_dd : ∀ c ∈ oldv, isDigitDot c = true)
    (hsuffix : suffix = [] ∨ ∃ s', suffix = '\n' :: s')
    (h1 : noHitBefore unreleasedHeading
        (unreleasedHeading ++ (mid ++ linkText url oldv suffix)) pre = true)
    (h2 : linkScanClear (linkText url oldv suffix)
        (pre ++ (versionSection ver today ++ mid)) = true)
    (h3 : subScanClear (linkText url oldv suffix)
        (pre ++ (versionSection ver today ++ mid)) = true)
    (h4 : subLinkLines (newLinksText ver url oldv) suffix = suffix) :
    updateChangelogContent ver today
        (pre ++ (unreleasedHeading ++ (mid ++ linkText url oldv suffix))) =
      pre ++ (versionSection ver today ++
        (mid ++ (newLinksText ver url oldv ++ suffix))) := by
  have htp : linkText url oldv suffix =
      linkLabel ++ (url ++ (compareLit ++ (oldv ++ (dotsHead ++ suffix)))) := rfl
  have hsufftw : suffix.takeWhile (fun x => x ≠ '\n') = [] := by
    rcases hsuffix with rfl | ⟨s', rfl⟩
    · rfl
    · simp [List.takeWhile_cons]
  have hline : (url ++ (compareLit ++ (oldv ++ (dotsHead ++ suffix)))).takeWhile
      (fun x => x ≠ '\n') = url ++ (compareLit ++ (oldv ++ dotsHead)) := by
    rw [takeWhile_append_of_all _ (fun c hc => by simp [hurl_nl c hc]),
        takeWhile_append_of_all _ (by decide),
        takeWhile_append_of_all _
          (fun c hc => by simp [isDigitDot_ne_nl (holdv_dd c hc)]),
        takeWhile_append_of_all _ (by decide),
        hsufftw]
    simp
  have hlinedrop : (url ++ (compareLit ++ (oldv ++ (dotsHead ++ suffix)))).drop
      (url ++ (compareLit ++ (oldv ++ dotsHead))).length = suffix := by
    rw [show url ++ (compareLit ++ (oldv ++ (dotsHead ++ suffix))) =
        (url ++ (compareLit ++ (oldv ++ dotsHead))) ++ suffix from by
          simp [List.append_assoc]]
    exact List.drop_left _ _
  have hstep1 : replaceFirst unreleasedHeading (versionSection ver today)
      (pre ++ (unreleasedHeading ++ (mid ++ linkText url oldv suffix))) =
      pre ++ (versionSection ver today ++ (mid ++ linkText url oldv suffix)) :=
    replaceFirst_split (by decide) _ _ pre h1
  have hassoc : pre ++ (versionSection ver today ++ (mid ++ linkText url oldv suffix)) =
      (pre ++ (versionSection ver today ++ mid)) ++ linkText url oldv suffix := by
    simp [List.append_assoc]
  have hfindk : findLinkSearch (linkText url oldv suffix) = some (url, oldv) := by
    apply findLinkSearch_pos
    · rw [htp]; simp [linkLabel]
    · rw [htp]; exact isPrefixOf_append_self _ _
    · rw [htp, List.drop_left, hline]
      exact matchCompareLine_at hurl_ne holdv_ne holdv_dd
  have hfind : findLinkSearch
      (pre ++ (versionSection ver today ++ (mid ++ linkText url oldv suffix))) =
      some (url, oldv) := by
    rw [hassoc, findLinkSearch_clear _ _ h2, hfindk]
  have hstep : subLinkLines (newLinksText ver url oldv) (linkText url oldv suffix) =
      newLinksText ver url oldv ++ suffix := by
    rw [htp]
    have hpref : linkLabel.isPrefixOf
        (linkLabel ++ (url ++ (compareLit ++ (oldv ++ (dotsHead ++ suffix))))) =
        true := isPrefixOf_append_self _ _
    have hdrop14 : (linkLabel ++
        (url ++ (compareLit ++ (oldv ++ (dotsHead ++ suffix))))).drop
        linkLabel.length = url ++ (compareLit ++ (oldv ++ (dotsHead ++ suffix))) :=
      List.drop_left _ _
    have hne2 : (((linkLabel ++
        (url ++ (compareLit ++ (oldv ++ (dotsHead ++ suffix))))).drop
        linkLabel.length).takeWhile (fun x => x ≠ '\n')).isEmpty = false := by
      rw [hdrop14, hline]
      cases url with
      | nil => exact absurd rfl hurl_ne
      | cons _ _ => rfl
    rw [subLinkLinesF_pos (by simp [linkLabel]) hpref hne2, hdrop14, hline,
      hlinedrop]
    rw [subLinkLinesF_fuel _ _ suffix.length suffix
        (by simp [linkLabel, List.length_append]; omega) le_rfl]
    rw [show subLinkLinesF (newLinksText ver url oldv) suffix.length suffix =
        subLinkLines (newLinksText ver url oldv) suffix from rfl, h4]
  have hsub : subLinkLines (newLinksText ver url oldv)
      (pre ++ (versionSection ver today ++ (mid ++ linkText url oldv suffix))) =
      pre ++ (versionSection ver today ++
        (mid ++ (newLinksText ver url oldv ++ suffix))) := by
    rw [hassoc, subLinkLines_clear _ _ _ h3, hstep]
    simp [List.append_assoc]
  simp only [updateChangelogContent]
  rw [hstep1, hfind]
  exact hsub

/-- Witness for C4: promotion of a concrete pending section in a small
standard-shaped changelog. -/
theorem c4_witness :
    updateChangelogContent ("0.4.0".toList) ("2026-10-12".toList)
        ("# CL\n\n".toList ++ (unreleasedHeading ++
          (("\n\n### Added\n- thing one here\n\n".toList) ++
            linkText ("https://g".toList) ("0.3.1".toList)
              ("\n[0.3.1]: https://g/compare/v0.3.0...v0.3.1\n".toList)))) =
      "# CL\n\n".toList ++ (versionSection ("0.4.0".toList) ("2026-10-12".toList) ++
        (("\n\n### Added\n- thing one here\n\n".toList) ++
          (newLinksText ("0.4.0".toList) ("https://g".toList) ("0.3.1".toList) ++
            ("\n[0.3.1]: https://g/compare/v0.3.0...v0.3.1\n".toList)))) :=
  c4_update_changelog_promotes ("0.4.0".toList) ("2026-10-12".toList)
    ("# CL\n\n".toList) ("\n\n### Added\n- thing one here\n\n".toList)
    ("https://g".toList) ("0.3.1".toList)
    ("\n[0.3.1]: https://g/compare/v0.3.0...v0.3.1\n".toList)
    (by decide) (by decide) (by decide) (by decide)
    (Or.inr ⟨("[0.3.1]: https://g/compare/v0.3.0...v0.3.1\n".toList), rfl⟩)
    (by decide) (by decide) (by decide) (by decide)

end Release
